import Mathlib

/-!
# Contacts: a mutt `query_command` for Google Contacts

A shallow embedding of `main.go`: the formatter (`printPerson`), the producer
loop and the consumer (filter) loop of `main`, the token store
(`newTokenFile`, `tokenfile.Token`) and the authorizer (`getToken`).

Go strings are modelled as lists of characters.  The strings this program
handles come out of JSON decoding or the command line, so they are UTF-8 text;
on such strings the byte-level operations used here (`strings.Contains`,
`strings.Split`, line scanning) agree with their character-level counterparts.
Sizes that Go measures in bytes are measured with `byteLen`.
-/

set_option autoImplicit false

namespace Contacts

/-- A Go string, as the sequence of its characters. -/
abbrev GoString := List Char

/-- Length in bytes of the UTF-8 encoding, Go's `len(s)`. -/
def byteLen (s : GoString) : Nat := (s.map Char.utf8Size).sum

/-! ## The `strings` helpers used by the program -/

/-- Go's `strings.HasPrefix(s, prefix)`. -/
def HasPrefix : GoString → GoString → Bool
  | _, [] => true
  | [], _ :: _ => false
  | c :: s, d :: p => c == d && HasPrefix s p

/-- Go's `strings.Index(s, substr)`: the position of the first occurrence of
`substr` in `s`, or `-1`. -/
def Index : GoString → GoString → Int
  | [], substr => if substr = [] then 0 else -1
  | c :: s, substr =>
    if HasPrefix (c :: s) substr then 0
    else
      let i := Index s substr
      if i < 0 then -1 else i + 1

/-- Go's `strings.Contains(s, substr)`, which is `Index(s, substr) >= 0`. -/
def Contains (s substr : GoString) : Bool := decide (0 ≤ Index s substr)

/-- The part of `s` before the first occurrence of `sep` and the part after
it, when `sep` occurs in `s`. -/
def cut : GoString → GoString → Option (GoString × GoString)
  | [], sep => if sep = [] then some ([], []) else none
  | c :: s, sep =>
    if HasPrefix (c :: s) sep then some ([], (c :: s).drop sep.length)
    else match cut s sep with
      | none => none
      | some (before, after) => some (c :: before, after)

/-- Body of `strings.Split` for a non-empty separator; `fuel` bounds the
number of pieces. -/
def splitLoop : Nat → GoString → GoString → List GoString
  | 0, s, _ => [s]
  | fuel + 1, s, sep =>
    match cut s sep with
    | none => [s]
    | some (before, after) => before :: splitLoop fuel after sep

/-- Go's `strings.Split(s, sep)`.  An empty separator explodes `s` into its
characters; otherwise `s` is cut at every occurrence of `sep`. -/
def Split (s sep : GoString) : List GoString :=
  if sep = [] then s.map (fun c => [c])
  else splitLoop s.length s sep

/-! ## Contact records (`people.Person`) -/

/-- The part of `people.Name` the program reads. -/
structure Name where
  DisplayName : GoString
  deriving DecidableEq, Repr

/-- The part of `people.EmailAddress` the program reads. -/
structure EmailAddress where
  Value : GoString
  deriving DecidableEq, Repr

/-- The part of `people.Person` requested by the field mask
`person.names,person.email_addresses`. -/
structure Person where
  Names : List Name
  EmailAddresses : List EmailAddress
  deriving DecidableEq, Repr

/-! ## Formatting -/

/-- One call `fmt.Fprintf(w, "%s\t%s\t\n", a, b)`: the bytes it appends to the
writer `w`. -/
def Fprintf (w a b : GoString) : GoString :=
  w ++ (a ++ '\t' :: (b ++ ['\t', '\n']))

/-- The loop `for _, a := range p.EmailAddresses` of the first branch of
`printPerson` (no name entries). -/
def printLocal (w : GoString) : List EmailAddress → GoString
  | [] => w
  | a :: as => printLocal (Fprintf w a.Value ((Split a.Value ['@']).headD [])) as

/-- The loop `for _, a := range p.EmailAddresses` of the second branch of
`printPerson` (`name` is fixed before the loop). -/
def printNamed (w : GoString) (name : GoString) : List EmailAddress → GoString
  | [] => w
  | a :: as => printNamed (Fprintf w a.Value name) name as

/-- The function `printPerson(w, p)`: the contents of the writer afterwards. -/
def printPerson (w : GoString) (p : Person) : GoString :=
  match p.Names with
  | [] => printLocal w p.EmailAddresses
  | n :: _ => printNamed w n.DisplayName p.EmailAddresses

/-- The producer loop of `main`, `for _, p := range lres.Connections`:
contacts without email addresses are skipped, the others are formatted into
the pipe. -/
def produce (w : GoString) : List Person → GoString
  | [] => w
  | p :: ps =>
    if p.EmailAddresses.length = 0 then produce w ps
    else produce (printPerson w p) ps

/-! ## Errors and results -/

/-- The Go `error` values the program can meet. -/
inductive GoError where
  /-- The `*PathError` of a path that does not exist (`ENOENT`). -/
  | notExist (path : GoString)
  /-- The `*PathError` of a path that may not be opened (`EACCES`). -/
  | permission (path : GoString)
  /-- The scanner's `bufio.ErrTooLong`. -/
  | tooLong
  /-- The error of `open` on an operating system it does not know. -/
  | unsupportedOS
  /-- Any other error of a library, with its message. -/
  | other (msg : GoString)
  deriving DecidableEq, Repr

/-- The method `Error()` of an `error` value. -/
def GoError.Error : GoError → GoString
  | .notExist path => "open ".toList ++ path ++ ": no such file or directory".toList
  | .permission path => "open ".toList ++ path ++ ": permission denied".toList
  | .tooLong => "bufio.Scanner: token too long".toList
  | .unsupportedOS => "dunno how to open URLs".toList
  | .other msg => msg

/-- How a call ends: it returns, or `log.Fatal` stops the process, or it
waits forever. -/
inductive Result (α : Type) where
  | ret (v : α)
  | fatal (e : GoError)
  | blocked
  deriving DecidableEq, Repr

/-! ## The line scanner (`bufio.NewScanner(rd)`, split function `ScanLines`) -/

/-- The constant `bufio.MaxScanTokenSize`, the capacity the scanner's buffer
grows to. -/
def maxTokenSize : Nat := 64 * 1024

/-- The helper `dropCR` of `bufio.ScanLines`: one trailing carriage return is
removed. -/
def dropCR (data : GoString) : GoString :=
  if data.getLast? = some '\r' then data.dropLast else data

/-- What a scanner delivers over its lifetime: the tokens of the successive
successful `s.Scan()` calls (`s.Text()`), and the value of `s.Err()` once
`s.Scan()` has returned false. -/
structure Scanned where
  tokens : List GoString
  err : Option GoError
  deriving DecidableEq, Repr

/-- Scanning the bytes of the pipe: `cur` is the text of the current line read
so far.  A line ends at a newline or at the end of the stream; a line whose
text fills the buffer before its newline arrives ends the scan with
`ErrTooLong`. -/
def scanFrom (cur : GoString) : GoString → Scanned
  | [] =>
    if cur = [] then ⟨[], none⟩
    else if maxTokenSize ≤ byteLen cur then ⟨[], some .tooLong⟩
    else ⟨[dropCR cur], none⟩
  | c :: rest =>
    if c = '\n' then
      if maxTokenSize ≤ byteLen cur then ⟨[], some .tooLong⟩
      else ⟨dropCR cur :: (scanFrom [] rest).tokens, (scanFrom [] rest).err⟩
    else scanFrom (cur ++ [c]) rest

/-- The scanner `s` reading everything the producer wrote before closing the
pipe. -/
def scanLines (stream : GoString) : Scanned := scanFrom [] stream

/-! ## The consumer loop of `main` -/

/-- State of the consumer loop: the flag `printed` and the argument of each
`fmt.Println` call made so far, in order. -/
structure Consumer where
  printed : Bool
  out : List GoString
  deriving DecidableEq, Repr

/-- The loop `for s.Scan() { if strings.Contains(s.Text(), q) { ... } }`
over the tokens the scanner delivers. -/
def consume (q : GoString) (st : Consumer) : List GoString → Consumer
  | [] => st
  | text :: rest =>
    if Contains text q then consume q ⟨true, st.out ++ [text]⟩ rest
    else consume q st rest

/-- The bytes `fmt.Println` writes for each of the given strings. -/
def printlnAll (lines : List GoString) : GoString :=
  (lines.map (fun l => l ++ ['\n'])).flatten

/-- How the process ends: what it wrote to standard output, the error
`log.Fatal` logged (if it was called), and the exit status. -/
structure Exit where
  stdout : GoString
  fatal : Option GoError
  code : Nat
  deriving DecidableEq, Repr

/-- The end of `main` after the consumer loop: `s.Err()` is checked, then the
flag `printed`. -/
def finish (stdout : GoString) (err : Option GoError) (st : Consumer) : Exit :=
  match err with
  | some e => ⟨stdout ++ printlnAll st.out, some e, 1⟩
  | none =>
    if !st.printed then ⟨stdout ++ printlnAll st.out, none, 1⟩
    else ⟨stdout ++ printlnAll st.out, none, 0⟩

/-- The pipeline of `main` from `bufio.NewScanner(rd)` to its end, given the
outcome `fetch` of the `Connections.List` call and the query `q`.  The
goroutine announces the fetch on standard output, stops the process with
status 1 if the call failed, and otherwise formats the contacts into the pipe
that the consumer loop scans. -/
def pipeline (fetch : Except GoError (List Person)) (q : GoString) : Exit :=
  match fetch with
  | .error e => ⟨"fetching...\t".toList ++ (e.Error ++ ['\n']), none, 1⟩
  | .ok conns =>
    let sc := scanLines (produce [] conns)
    finish "fetching...\tOK\n".toList sc.err (consume q ⟨false, []⟩ sc.tokens)

/-! ## Credentials and their serialization -/

/-- An instant (`time.Time`), in nanoseconds since the Unix epoch. -/
abbrev Time := Int

/-- The struct `oauth2.Token`.  The field `raw` is unexported and carries no
JSON tag, so it is never serialized. -/
structure Token where
  AccessToken : GoString
  TokenType : GoString
  RefreshToken : GoString
  Expiry : Time
  raw : Option GoString
  deriving DecidableEq, Repr

/-- The package `encoding/json` as the program uses it on `oauth2.Token`:
`Encode` gives the bytes `json.NewEncoder(f).Encode(tok)` writes, `Decode` the
value `json.NewDecoder(r).Decode(&tok)` reads from the bytes of `r`. -/
structure JSON where
  Encode : Token → Except GoError GoString
  Decode : GoString → Except GoError Token

/-! ## Files -/

/-- A regular file: its contents and whether this user may read or write
it. -/
structure FileNode where
  data : GoString
  readable : Bool
  writable : Bool
  deriving DecidableEq, Repr

/-- The file system: the files that exist, by path, and the paths at which no
new file can be created (missing or read-only directory). -/
structure FS where
  files : List (GoString × FileNode)
  noCreate : List GoString
  deriving DecidableEq, Repr

/-- The file at a path, if there is one. -/
def FS.find (fs : FS) (name : GoString) : Option FileNode :=
  match fs.files.find? (fun e => e.1 == name) with
  | none => none
  | some e => some e.2

/-- The file system with the file at `name` replaced by (or created as)
`node`. -/
def FS.set (fs : FS) (name : GoString) (node : FileNode) : FS :=
  { fs with files := (name, node) :: fs.files.filter (fun e => !(e.1 == name)) }

/-- An open file (`os.File`): the path it was opened at and the current
offset. -/
structure File where
  name : GoString
  offset : Nat
  deriving DecidableEq, Repr

/-- The call `os.Open(name)`: open for reading. -/
def osOpen (fs : FS) (name : GoString) : Except GoError File :=
  match fs.find name with
  | none => .error (.notExist name)
  | some node => if node.readable then .ok ⟨name, 0⟩ else .error (.permission name)

/-- The call `os.Create(name)`: open for reading and writing, creating the
file if it does not exist and truncating it if it does. -/
def osCreate (fs : FS) (name : GoString) : Except GoError (FS × File) :=
  match fs.find name with
  | some node =>
    if node.readable && node.writable then .ok (fs.set name { node with data := [] }, ⟨name, 0⟩)
    else .error (.permission name)
  | none =>
    if name ∈ fs.noCreate then .error (.notExist name)
    else .ok (fs.set name ⟨[], true, true⟩, ⟨name, 0⟩)

/-- The method `Seek(offset, 0)` of a regular file. -/
def File.Seek (f : File) (offset : Nat) : Except GoError File :=
  .ok { f with offset := offset }

/-- What reading `f` to the end yields: the contents from the offset on. -/
def File.rest (fs : FS) (f : File) : GoString :=
  match fs.find f.name with
  | none => []
  | some node => node.data.drop f.offset

/-- The method `Write(b)` of a file: `b` replaces the contents from the
offset on. -/
def File.Write (fs : FS) (f : File) (b : GoString) : FS × File :=
  match fs.find f.name with
  | none => (fs, f)
  | some node =>
    (fs.set f.name { node with data := node.data.take f.offset ++ b ++ node.data.drop (f.offset + b.length) },
      { f with offset := f.offset + b.length })

/-! ## The token store -/

/-- The struct `tokenfile`: the embedded `os.File` (the embedded `sync.Mutex`
only orders concurrent calls). -/
structure tokenfile where
  File : File
  deriving DecidableEq, Repr

/-- The function `newTokenFile(name)`. -/
def newTokenFile (fs : FS) (name : GoString) : Except GoError tokenfile :=
  match osOpen fs name with
  | .error err => .error err
  | .ok f => .ok ⟨f⟩

/-- The method `(t *tokenfile) Token()`: seek to the start, then decode. -/
def tokenfile.Token (json : JSON) (fs : FS) (t : tokenfile) : Except GoError Token :=
  match t.File.Seek 0 with
  | .error err => .error err
  | .ok f =>
    match json.Decode (f.rest fs) with
    | .error err => .error err
    | .ok tok => .ok tok

/-! ## The authorizer -/

/-- The part of `oauth2.Config` the program touches: the client settings read
from the secrets file, and the redirect URL that `getToken` overwrites. -/
structure Config where
  client : GoString
  RedirectURL : GoString
  deriving DecidableEq, Repr

/-- What the interactive authorization depends on outside the program. -/
structure Env where
  /-- The value of `$HOME`. -/
  HOME : GoString
  /-- The constant `runtime.GOOS`. -/
  GOOS : GoString
  /-- The outcome of `exec.Command(name, url).Start()`. -/
  start : GoString → GoString → Option GoError
  /-- The URL of the server `httptest.NewServer` starts. -/
  srvURL : GoString
  /-- The method `cfg.AuthCodeURL(state, oauth2.AccessTypeOffline)`. -/
  AuthCodeURL : Config → GoString → GoString
  /-- The first non-empty `code` form value the handler receives, if one ever
  arrives. -/
  code : Option GoString
  /-- The method `cfg.Exchange(ctx, code)`. -/
  Exchange : Config → GoString → Except GoError Token
  /-- The function `google.ConfigFromJSON` on the bytes of the secrets file. -/
  ConfigFromJSON : GoString → Except GoError Config
  /-- The error of `people.New(c)`, if any. -/
  New : Config → Token → Option GoError
  /-- The outcome of the `Connections.List("people/me")` call: the field
  `lres.Connections`, or the error. -/
  List : Config → Token → Except GoError (List Person)

/-- The variable `tokenFile`, `os.ExpandEnv("$HOME/.contacts-token")`. -/
def tokenFile (env : Env) : GoString := env.HOME ++ "/.contacts-token".toList

/-- The function `open(url)`. -/
def «open» (env : Env) (url : GoString) : Option GoError :=
  if env.GOOS = "linux".toList then env.start "xdg-open".toList url
  else if env.GOOS = "darwin".toList then env.start "open".toList url
  else some .unsupportedOS

/-- What `getToken` does that can be observed from outside, in order. -/
inductive Event where
  /-- The redirect target was started (`httptest.NewServer`). -/
  | serverStarted (url : GoString)
  /-- The browser was launched on the authorization URL. -/
  | browserOpened (url : GoString)
  /-- The authorization code was exchanged for a token. -/
  | exchanged (code : GoString)
  deriving DecidableEq, Repr

/-- State threaded through `getToken`: the file system, the configuration
(`cfg` is a pointer) and the events so far. -/
structure World where
  fs : FS
  cfg : Config
  trace : List Event
  deriving DecidableEq, Repr

/-- The end of the interactive branch of `getToken`: `os.Create(tokenFile)`,
then `json.NewEncoder(f).Encode(tok)`; the error returned, if any, and the
file system afterwards. -/
def persist (json : JSON) (fs : FS) (name : GoString) (tok : Token) : Option GoError × FS :=
  match osCreate fs name with
  | .error err => (some err, fs)
  | .ok (fs, f) =>
    match json.Encode tok with
    | .error err => (some err, fs)
    | .ok b => (none, (f.Write fs b).1)

/-- The interactive branch of `getToken`, the body of
`if src, err = newTokenFile(tokenFile); err != nil`. -/
def authorize (env : Env) (json : JSON) (w : World) : Result (Except GoError Token) × World :=
  let w := { w with trace := w.trace ++ [Event.serverStarted env.srvURL] }
  let w := { w with cfg := { w.cfg with RedirectURL := env.srvURL } }
  let u := env.AuthCodeURL w.cfg "csrf".toList
  match «open» env u with
  | some err => (.fatal err, w)
  | none =>
    let w := { w with trace := w.trace ++ [Event.browserOpened u] }
    match env.code with
    | none => (.blocked, w)
    | some code =>
      match env.Exchange w.cfg code with
      | .error err => (.fatal err, w)
      | .ok tok =>
        let w := { w with trace := w.trace ++ [Event.exchanged code] }
        match persist json w.fs (tokenFile env) tok with
        | (some err, fs) => (.ret (.error err), { w with fs := fs })
        | (none, fs) => (.ret (.ok tok), { w with fs := fs })

/-- The function `getToken(cfg)`. -/
def getToken (env : Env) (json : JSON) (w : World) : Result (Except GoError Token) × World :=
  match newTokenFile w.fs (tokenFile env) with
  | .error _ => authorize env json w
  | .ok src =>
    match src.Token json w.fs with
    | .error err => (.ret (.error err), w)
    | .ok tok => (.ret (.ok tok), w)

/-- The query of `main`: the first positional argument, or the empty string
when there is none (`flag.NArg() != 0`, `flag.Arg(0)`). -/
def query (args : List GoString) : GoString :=
  if args.length ≠ 0 then args.headD [] else []

/-- The call `ioutil.ReadFile(name)`. -/
def ReadFile (fs : FS) (name : GoString) : Except GoError GoString :=
  match osOpen fs name with
  | .error err => .error err
  | .ok f => .ok (f.rest fs)

/-- The end of the process when `log.Fatal(err)` is called before anything was
printed. -/
def Fatal (err : GoError) : Exit := ⟨[], some err, 1⟩

/-- The function `main`, run with the positional arguments `args` on the file
system `fs`: how the process ends, or `none` when it waits forever for an
authorization code. -/
def main (env : Env) (json : JSON) (args : List GoString) (fs : FS) : Option Exit :=
  match ReadFile fs (env.HOME ++ "/.contacts-secrets.json".toList) with
  | .error err => some (Fatal err)
  | .ok sj =>
    match env.ConfigFromJSON sj with
    | .error err => some (Fatal err)
    | .ok cfg =>
      match getToken env json ⟨fs, cfg, []⟩ with
      | (.blocked, _) => none
      | (.fatal err, _) => some (Fatal err)
      | (.ret (.error err), _) => some (Fatal err)
      | (.ret (.ok tok), w) =>
        match env.New w.cfg tok with
        | some err => some (Fatal err)
        | none => some (pipeline (env.List w.cfg tok) (query args))

/-! ## The notions of the specification -/

/-- The Output Line of the specification, `email<TAB>displayName<TAB>`
(without the newline that ends it in the stream). -/
def OutputLine (email name : GoString) : GoString :=
  email ++ '\t' :: (name ++ ['\t'])

/-- The local part of an email address: the text before its first `@`. -/
def localPart (email : GoString) : GoString :=
  email.takeWhile (fun c => c != '@')

/-- The Output Lines of one contact, as the specification describes them: one
per email address, named after the first name entry, or after the local part
of the address when there is no name entry. -/
def outputLines (p : Person) : List GoString :=
  match p.Names with
  | [] => p.EmailAddresses.map (fun a => OutputLine a.Value (localPart a.Value))
  | n :: _ => p.EmailAddresses.map (fun a => OutputLine a.Value n.DisplayName)

/-- A string that the scanner hands back unchanged when it is written as one
line: it holds no newline, does not end in a carriage return, and fits the
scanner's buffer together with its newline. -/
def SingleLine (l : GoString) : Prop :=
  '\n' ∉ l ∧ l.getLast? ≠ some '\r' ∧ byteLen l < maxTokenSize

/-- Two credentials with the same token fields: access token, token type,
refresh token and expiry. -/
def SameFields (a b : Token) : Prop :=
  a.AccessToken = b.AccessToken ∧ a.TokenType = b.TokenType
    ∧ a.RefreshToken = b.RefreshToken ∧ a.Expiry = b.Expiry

/-- The serialization round-trips `tok`: what it encodes for `tok` decodes,
without error, to a credential with the same token fields. -/
def RoundTrips (json : JSON) (tok : Token) : Prop :=
  ∀ b, json.Encode tok = .ok b → ∃ tok', json.Decode b = .ok tok' ∧ SameFields tok' tok

/-! ## Sample data -/

/-- Decimal digits of an integer. -/
def showInt (i : Int) : GoString :=
  if i < 0 then '-' :: Nat.toDigits 10 i.natAbs else Nat.toDigits 10 i.natAbs

/-- The natural number a string of decimal digits denotes. -/
def readNat (s : GoString) : Option Nat :=
  if s ≠ [] ∧ s.all Char.isDigit then
    some (s.foldl (fun acc c => 10 * acc + (c.toNat - '0'.toNat)) 0)
  else none

/-- The integer a decimal string denotes. -/
def readInt : GoString → Option Int
  | '-' :: s => (readNat s).map (fun n => - (n : Int))
  | s => (readNat s).map (fun n => (n : Int))

/-- A small serialization standing in for `encoding/json` where a concrete
one is needed: the four exported fields, one per line.  Input of any other
shape is rejected, and empty input with `io.EOF` as by `encoding/json`. -/
def lineJSON : JSON where
  Encode tok :=
    .ok (tok.AccessToken ++ '\n' :: (tok.TokenType ++ '\n' :: (tok.RefreshToken ++ '\n' ::
      (showInt tok.Expiry ++ ['\n']))))
  Decode b :=
    if b = [] then .error (.other "EOF".toList)
    else match Split b ['\n'] with
      | [a, t, r, e, []] =>
        match readInt e with
        | some x => .ok ⟨a, t, r, x, none⟩
        | none => .error (.other "invalid expiry".toList)
      | _ => .error (.other "unexpected input".toList)

/-- A credential as the exchange returns it. -/
def sampleToken : Token :=
  ⟨"ya29.a0".toList, "Bearer".toList, "1//0g".toList, 1478254523, some "id_token".toList⟩

/-- A Linux machine on which the browser starts, the user grants access and
the exchange succeeds. -/
def sampleEnv : Env where
  HOME := "/home/u".toList
  GOOS := "linux".toList
  start := fun _ _ => none
  srvURL := "http://127.0.0.1:4000".toList
  AuthCodeURL := fun cfg state => "https://accounts/auth?redirect=".toList ++ cfg.RedirectURL
    ++ "&state=".toList ++ state
  code := some "4/xyz".toList
  Exchange := fun _ _ => .ok sampleToken
  ConfigFromJSON := fun sj => .ok ⟨sj, []⟩
  New := fun _ _ => none
  List := fun _ _ => .ok []

/-- A file system holding the secrets file and no token file. -/
def freshFS : FS :=
  ⟨[("/home/u/.contacts-secrets.json".toList, ⟨"secrets".toList, true, true⟩)], []⟩

/-- A file system holding the secrets file and an empty token file. -/
def emptyTokenFS : FS :=
  ⟨[("/home/u/.contacts-token".toList, ⟨[], true, true⟩),
    ("/home/u/.contacts-secrets.json".toList, ⟨"secrets".toList, true, true⟩)], []⟩

theorem hasPrefix_iff (s p : GoString) : HasPrefix s p = true ↔ p <+: s := by
  induction s generalizing p with
  | nil =>
    cases p with
    | nil => simp [HasPrefix]
    | cons d p => simp [HasPrefix]
  | cons c s ih =>
    cases p with
    | nil => simp [HasPrefix]
    | cons d p =>
      simp only [HasPrefix, Bool.and_eq_true, beq_iff_eq, ih, List.cons_prefix_cons]
      constructor
      · rintro ⟨h, h2⟩
        exact ⟨h.symm, h2⟩
      · rintro ⟨h, h2⟩
        exact ⟨h.symm, h2⟩

theorem index_ge (s substr : GoString) : -1 ≤ Index s substr := by
  induction s with
  | nil => simp only [Index]; split <;> omega
  | cons c s ih =>
    simp only [Index]
    split
    · omega
    · split <;> omega

theorem index_nonneg_iff (s substr : GoString) : 0 ≤ Index s substr ↔ substr <:+: s := by
  induction s with
  | nil =>
    simp only [Index, List.infix_nil]
    split <;> simp_all
  | cons c s ih =>
    simp only [Index, List.infix_cons_iff, ← ih]
    by_cases hp : HasPrefix (c :: s) substr = true
    · simp only [hp, if_true, le_refl, true_iff]
      exact Or.inl ((hasPrefix_iff _ _).1 hp)
    · have hn : ¬ substr <+: c :: s := fun h => hp ((hasPrefix_iff _ _).2 h)
      simp only [hp, hn, false_or]
      have := index_ge s substr
      simp only [Bool.false_eq_true, if_false]
      split <;> omega

theorem contains_iff (s substr : GoString) : Contains s substr = true ↔ substr <:+: s := by
  simp [Contains, index_nonneg_iff]

theorem contains_empty (s : GoString) : Contains s [] = true :=
  (contains_iff s []).2 (List.nil_infix)

theorem localPart_eq_self (s : GoString) (h : '@' ∉ s) : localPart s = s := by
  induction s with
  | nil => rfl
  | cons c s ih =>
    have hc : c ≠ '@' := fun e => h (by simp [e])
    have hs : '@' ∉ s := fun e => h (List.mem_cons_of_mem _ e)
    have ih2 := ih hs
    simp only [localPart] at ih2 ⊢
    simp [List.takeWhile_cons, hc, ih2]

theorem cut_at_none (s : GoString) (h : '@' ∉ s) : cut s ['@'] = none := by
  induction s with
  | nil => simp [cut]
  | cons c s ih =>
    have hc : c ≠ '@' := fun e => h (by simp [e])
    have hs : '@' ∉ s := fun e => h (List.mem_cons_of_mem _ e)
    simp [cut, HasPrefix, hc, ih hs]

theorem cut_at_some (s : GoString) (h : '@' ∈ s) :
    ∃ after, cut s ['@'] = some (localPart s, after) := by
  induction s with
  | nil => simp at h
  | cons c s ih =>
    by_cases hc : c = '@'
    · subst hc
      exact ⟨s, by simp [cut, HasPrefix, localPart]⟩
    · have hs : '@' ∈ s := by
        rcases List.mem_cons.1 h with e | e
        · exact absurd e.symm hc
        · exact e
      obtain ⟨after, ha⟩ := ih hs
      exact ⟨after, by simp [cut, HasPrefix, hc, ha, localPart, List.takeWhile_cons]⟩

theorem split_at_head (s : GoString) : (Split s ['@']).headD [] = localPart s := by
  cases s with
  | nil => simp [Split, splitLoop, localPart]
  | cons c s =>
    by_cases h : '@' ∈ c :: s
    · obtain ⟨after, ha⟩ := cut_at_some (c :: s) h
      simp [Split, splitLoop, ha]
    · simp [Split, splitLoop, cut_at_none (c :: s) h, localPart_eq_self (c :: s) h]

/-! ## Facts about the formatter and the producer -/

theorem printlnAll_cons (l : GoString) (ls : List GoString) :
    printlnAll (l :: ls) = l ++ '\n' :: printlnAll ls := by
  simp [printlnAll]

theorem printlnAll_append (ls ms : List GoString) :
    printlnAll (ls ++ ms) = printlnAll ls ++ printlnAll ms := by
  simp [printlnAll]

theorem fprintf_eq (w a b : GoString) :
    Fprintf w a b = w ++ printlnAll [OutputLine a b] := by
  simp [Fprintf, printlnAll, OutputLine]

theorem printNamed_eq (w name : GoString) (as : List EmailAddress) :
    printNamed w name as
      = w ++ printlnAll (as.map (fun a => OutputLine a.Value name)) := by
  induction as generalizing w with
  | nil => simp [printNamed, printlnAll]
  | cons a as ih =>
    simp only [printNamed, ih, fprintf_eq, List.map_cons, List.append_assoc]
    rw [← printlnAll_append]
    rfl

theorem printLocal_eq (w : GoString) (as : List EmailAddress) :
    printLocal w as
      = w ++ printlnAll (as.map (fun a => OutputLine a.Value (localPart a.Value))) := by
  induction as generalizing w with
  | nil => simp [printLocal, printlnAll]
  | cons a as ih =>
    simp only [printLocal, ih, fprintf_eq, List.map_cons, List.append_assoc, split_at_head]
    rw [← printlnAll_append]
    rfl

theorem printPerson_eq (w : GoString) (p : Person) :
    printPerson w p = w ++ printlnAll (outputLines p) := by
  cases h : p.Names with
  | nil => simp [printPerson, outputLines, h, printLocal_eq]
  | cons n ns => simp [printPerson, outputLines, h, printNamed_eq]

theorem outputLines_of_no_email (p : Person) (h : p.EmailAddresses = []) :
    outputLines p = [] := by
  cases hn : p.Names <;> simp [outputLines, hn, h]

theorem produce_eq (w : GoString) (conns : List Person) :
    produce w conns = w ++ printlnAll (conns.flatMap outputLines) := by
  induction conns generalizing w with
  | nil => simp [produce, printlnAll]
  | cons p ps ih =>
    simp only [produce, List.flatMap_cons, printlnAll_append]
    split
    · rename_i h
      rw [ih, outputLines_of_no_email p (List.length_eq_zero.1 h)]
      simp [printlnAll]
    · rw [ih, printPerson_eq, List.append_assoc]

theorem produce_append (w : GoString) (ps qs : List Person) :
    produce w (ps ++ qs) = produce (produce w ps) qs := by
  simp [produce_eq, printlnAll_append]

/-! ## Facts about the consumer loop -/

theorem byteLen_append (s t : GoString) : byteLen (s ++ t) = byteLen s + byteLen t := by
  simp [byteLen]

theorem scanFrom_line (cur l rest : GoString) (h : '\n' ∉ l) :
    scanFrom cur (l ++ '\n' :: rest)
      = if maxTokenSize ≤ byteLen (cur ++ l) then ⟨[], some .tooLong⟩
        else ⟨dropCR (cur ++ l) :: (scanFrom [] rest).tokens, (scanFrom [] rest).err⟩ := by
  induction l generalizing cur with
  | nil => simp [scanFrom]
  | cons c l ih =>
    have hc : c ≠ '\n' := fun e => h (by simp [e])
    have hl : '\n' ∉ l := fun e => h (List.mem_cons_of_mem _ e)
    have step : scanFrom cur (c :: (l ++ '\n' :: rest)) = scanFrom (cur ++ [c]) (l ++ '\n' :: rest) := by
      simp [scanFrom, hc]
    rw [List.cons_append, step, ih _ hl]
    simp

theorem scanLines_printlnAll (ls : List GoString) (h : ∀ l ∈ ls, SingleLine l) :
    scanLines (printlnAll ls) = ⟨ls, none⟩ := by
  unfold scanLines
  induction ls with
  | nil => simp [printlnAll, scanFrom]
  | cons l ls ih =>
    obtain ⟨h1, h2, h3⟩ := h l (List.mem_cons_self _ _)
    have ih2 := ih (fun m hm => h m (List.mem_cons_of_mem _ hm))
    rw [printlnAll_cons, scanFrom_line _ _ _ h1, ih2]
    have h4 : ¬ maxTokenSize ≤ byteLen l := by omega
    simp [h4, dropCR, h2]

theorem outputLine_singleLine (a b : GoString) (ha : '\n' ∉ a) (hb : '\n' ∉ b)
    (hlen : byteLen a + byteLen b + 2 < maxTokenSize) : SingleLine (OutputLine a b) := by
  refine ⟨?_, ?_, ?_⟩
  · simp [OutputLine, ha, hb]
  · have : OutputLine a b = (a ++ '\t' :: b) ++ ['\t'] := by simp [OutputLine]
    rw [this, List.getLast?_append]
    simp
  · have : byteLen (OutputLine a b) = byteLen a + byteLen b + 2 := by
      simp [OutputLine, byteLen, Char.utf8Size]
      omega
    omega

theorem scanLines_produce (conns : List Person)
    (h : ∀ l ∈ conns.flatMap outputLines, SingleLine l) :
    scanLines (produce [] conns) = ⟨conns.flatMap outputLines, none⟩ := by
  rw [produce_eq, List.nil_append]
  exact scanLines_printlnAll _ h

theorem localPart_spec (e : GoString) (h : '@' ∈ e) :
    ∃ rest, e = localPart e ++ '@' :: rest ∧ '@' ∉ localPart e := by
  induction e with
  | nil => simp at h
  | cons c e ih =>
    by_cases hc : c = '@'
    · subst hc
      exact ⟨e, by simp [localPart]⟩
    · have he : '@' ∈ e := by
        rcases List.mem_cons.1 h with x | x
        · exact absurd x.symm hc
        · exact x
      obtain ⟨rest, h1, h2⟩ := ih he
      refine ⟨rest, ?_, ?_⟩
      · simp only [localPart] at h1 ⊢
        simp only [List.takeWhile_cons, bne_iff_ne, ne_eq, hc, not_false_eq_true, decide_True,
          if_true, List.cons_append]
        rw [← h1]
      · simp only [localPart] at h2 ⊢
        simp only [List.takeWhile_cons, bne_iff_ne, ne_eq, hc, not_false_eq_true, decide_True,
          if_true, List.mem_cons, not_or]
        exact ⟨fun x => hc x.symm, h2⟩

theorem printlnAll_outputLine (name : GoString → GoString) (emails : List EmailAddress) :
    printlnAll (emails.map (fun a => OutputLine a.Value (name a.Value)))
      = (emails.map (fun a => a.Value ++ ['\t'] ++ name a.Value ++ ['\t', '\n'])).flatten := by
  induction emails with
  | nil => rfl
  | cons a as ih =>
    simp only [List.map_cons, printlnAll_cons, ih, List.flatten_cons]
    simp [OutputLine]

/-! ## The claims about the pipeline -/

/-- C4: for a contact without email addresses, with or without names,
`printPerson` writes nothing, the producer loop skips the contact, and no
line reaches the consumer. -/
theorem no_email_no_output (p : Person) (w : GoString) (h : p.EmailAddresses = []) :
    printPerson w p = w
    ∧ (∀ ps : List Person, produce w (p :: ps) = produce w ps)
    ∧ (∀ before after : List Person,
        produce w (before ++ p :: after) = produce w (before ++ after))
    ∧ produce [] [p] = []
    ∧ (scanLines (produce [] [p])).tokens = [] := by
  have h0 : outputLines p = [] := outputLines_of_no_email p h
  refine ⟨?_, ?_, ?_, ?_, ?_⟩
  · simp [printPerson_eq, h0, printlnAll]
  · intro ps
    simp [produce, h]
  · intro before after
    simp [produce_eq, h0]
  · simp [produce, h]
  · simp [produce, h, scanLines, scanFrom]

/-- C5: for a contact with one display name `d` and emails `e1..eN`,
`printPerson` writes exactly `N` lines, in the order of the emails, the
`i`-th being `ei<TAB>d<TAB>` followed by a newline; when these are single
lines the scanner hands exactly these `N` lines to the consumer. -/
theorem one_line_per_email_sharing_name (w d : GoString) (emails : List EmailAddress) :
    printPerson w ⟨[⟨d⟩], emails⟩
      = w ++ (emails.map (fun a => a.Value ++ ['\t'] ++ d ++ ['\t', '\n'])).flatten
    ∧ (emails.map (fun a => a.Value ++ ['\t'] ++ d ++ ['\t', '\n'])).length = emails.length
    ∧ ((∀ a ∈ emails, SingleLine (a.Value ++ ['\t'] ++ d ++ ['\t'])) →
        scanLines (printPerson [] ⟨[⟨d⟩], emails⟩)
          = ⟨emails.map (fun a => a.Value ++ ['\t'] ++ d ++ ['\t']), none⟩) := by
  refine ⟨?_, by simp, ?_⟩
  · rw [printPerson_eq]
    simp only [outputLines]
    rw [printlnAll_outputLine (fun _ => d)]
  · intro h
    rw [printPerson_eq]
    simp only [outputLines, List.nil_append]
    have e : (emails.map (fun a => OutputLine a.Value d))
        = emails.map (fun a => a.Value ++ ['\t'] ++ d ++ ['\t']) := by
      apply List.map_congr_left
      intro a _
      simp [OutputLine]
    rw [e]
    apply scanLines_printlnAll
    intro l hl
    obtain ⟨a, ha, rfl⟩ := List.mem_map.1 hl
    exact h a ha

/-- C6: for a contact with no name entry and emails `e1..eN`, `printPerson`
writes one line per email, `ei<TAB>local(ei)<TAB>` followed by a newline,
where `local(ei)` is the text of `ei` before its first `@`; the emails
`a@x.com`, `b@y.com` give `a@x.com<TAB>a<TAB>` and `b@y.com<TAB>b<TAB>`. -/
theorem local_part_when_no_name (w : GoString) (emails : List EmailAddress) :
    printPerson w ⟨[], emails⟩
      = w ++ (emails.map
          (fun a => a.Value ++ ['\t'] ++ localPart a.Value ++ ['\t', '\n'])).flatten
    ∧ (∀ a ∈ emails, (Split a.Value ['@']).headD [] = localPart a.Value)
    ∧ (∀ e : GoString, '@' ∈ e → ∃ rest, e = localPart e ++ '@' :: rest ∧ '@' ∉ localPart e)
    ∧ printPerson [] ⟨[], [⟨"a@x.com".toList⟩, ⟨"b@y.com".toList⟩]⟩
        = "a@x.com\ta\t\nb@y.com\tb\t\n".toList := by
  refine ⟨?_, fun a _ => split_at_head a.Value, localPart_spec, by decide⟩
  rw [printPerson_eq]
  simp only [outputLines]
  rw [printlnAll_outputLine localPart]

/-- C10: for a contact with at least one name entry, the name field of every
line `printPerson` writes is the display name of the first entry, also when
that display name is empty: the lines are then `email<TAB><TAB>` and a
newline, and the local part of the email is not substituted. -/
theorem first_name_entry_even_if_empty (w : GoString) (n : Name) (rest : List Name)
    (emails : List EmailAddress) :
    printPerson w ⟨n :: rest, emails⟩
      = w ++ (emails.map (fun a => a.Value ++ ['\t'] ++ n.DisplayName ++ ['\t', '\n'])).flatten
    ∧ printPerson w ⟨⟨[]⟩ :: rest, emails⟩
      = w ++ (emails.map (fun a => a.Value ++ ['\t', '\t', '\n'])).flatten
    ∧ printPerson [] ⟨[⟨[]⟩], [⟨"a@x.com".toList⟩]⟩ = "a@x.com\t\t\n".toList
    ∧ printPerson [] ⟨[], [⟨"a@x.com".toList⟩]⟩ = "a@x.com\ta\t\n".toList := by
  have h : ∀ m : Name, printPerson w ⟨m :: rest, emails⟩
      = w ++ (emails.map
          (fun a => a.Value ++ ['\t'] ++ m.DisplayName ++ ['\t', '\n'])).flatten := by
    intro m
    rw [printPerson_eq]
    simp only [outputLines]
    rw [printlnAll_outputLine (fun _ => m.DisplayName)]
  refine ⟨h n, ?_, by decide, by decide⟩
  rw [h ⟨[]⟩]
  simp

/-! ## Facts about files and the token store -/

theorem find_set (fs : FS) (name : GoString) (node : FileNode) :
    (fs.set name node).find name = some node := by
  simp [FS.set, FS.find, List.find?]

theorem write_after_create (fs : FS) (name : GoString) (node : FileNode) (b : GoString)
    (h : node.data = []) :
    ((File.Write (fs.set name node) ⟨name, 0⟩ b).1).find name
      = some { node with data := b } := by
  simp only [File.Write, find_set]
  simp [h]

theorem persist_ok (json : JSON) (fs fs' : FS) (name : GoString) (tok : Token)
    (hp : persist json fs name tok = (none, fs')) :
    ∃ b node, json.Encode tok = .ok b ∧ fs'.find name = some node
      ∧ node.data = b ∧ node.readable = true := by
  unfold persist osCreate at hp
  cases hf : fs.find name with
  | none =>
    simp only [hf] at hp
    by_cases hc : name ∈ fs.noCreate
    · simp [hc] at hp
    · simp only [hc, if_false] at hp
      cases he : json.Encode tok with
      | error err => simp [he] at hp
      | ok b =>
        simp only [he, Prod.mk.injEq, true_and] at hp
        refine ⟨b, ⟨b, true, true⟩, rfl, ?_, rfl, rfl⟩
        rw [← hp, write_after_create _ _ _ _ rfl]
  | some node =>
    simp only [hf] at hp
    by_cases hc : (node.readable && node.writable) = true
    · simp only [hc, if_true] at hp
      cases he : json.Encode tok with
      | error err => simp [he] at hp
      | ok b =>
        simp only [he, Prod.mk.injEq, true_and] at hp
        refine ⟨b, { node with data := b }, rfl, ?_, rfl, ?_⟩
        · rw [← hp, write_after_create _ _ _ _ rfl]
        · simp only [Bool.and_eq_true] at hc
          exact hc.1
    · simp [hc] at hp

theorem load_of_find (json : JSON) (fs : FS) (name : GoString) (node : FileNode)
    (hf : fs.find name = some node) (hr : node.readable = true) :
    newTokenFile fs name = .ok ⟨⟨name, 0⟩⟩
      ∧ tokenfile.Token json fs ⟨⟨name, 0⟩⟩ = json.Decode node.data := by
  constructor
  · simp [newTokenFile, osOpen, hf, hr]
  · simp only [tokenfile.Token, File.Seek, File.rest, hf, List.drop_zero]
    cases json.Decode node.data <;> rfl

theorem getToken_cached (env : Env) (json : JSON) (w : World) (node : FileNode)
    (hf : w.fs.find (tokenFile env) = some node) (hr : node.readable = true) :
    getToken env json w = (.ret (json.Decode node.data), w) := by
  obtain ⟨h1, h2⟩ := load_of_find json w.fs (tokenFile env) node hf hr
  simp only [getToken, h1, h2]
  cases json.Decode node.data <;> rfl

theorem authorize_trace (env : Env) (json : JSON) (w : World) :
    ∃ rest, (authorize env json w).2.trace
      = w.trace ++ Event.serverStarted env.srvURL :: rest := by
  unfold authorize
  simp only
  split
  · exact ⟨[], rfl⟩
  · split
    · exact ⟨_, by simp only [List.append_assoc]; rfl⟩
    · split
      · exact ⟨_, by simp only [List.append_assoc]; rfl⟩
      · split <;> exact ⟨_, by simp only [List.append_assoc]; rfl⟩

theorem authorize_persists (env : Env) (json : JSON) (w w1 : World) (tok : Token)
    (h : authorize env json w = (.ret (.ok tok), w1)) :
    persist json w.fs (tokenFile env) tok = (none, w1.fs) := by
  unfold authorize at h
  simp only at h
  split at h
  · simp at h
  · split at h
    · simp at h
    · split at h
      · simp at h
      · split at h
        · simp at h
        · rename_i fs hp
          simp only [Prod.mk.injEq, Result.ret.injEq, Except.ok.injEq] at h
          obtain ⟨h1, h2⟩ := h
          subst h1
          rw [hp, ← h2]

theorem getToken_twice (env : Env) (json : JSON) (w w1 : World) (tok : Token) (e : GoError)
    (hmiss : newTokenFile w.fs (tokenFile env) = .error e)
    (hrun : getToken env json w = (.ret (.ok tok), w1)) (hjson : RoundTrips json tok) :
    ∃ tok', getToken env json w1 = (.ret (.ok tok'), w1) ∧ SameFields tok' tok := by
  have ha : authorize env json w = (.ret (.ok tok), w1) := by
    simpa only [getToken, hmiss] using hrun
  obtain ⟨b, node, henc, hfind, hdata, hread⟩ :=
    persist_ok json w.fs w1.fs (tokenFile env) tok (authorize_persists env json w w1 tok ha)
  obtain ⟨tok', hdec, hsame⟩ := hjson b henc
  exact ⟨tok', by rw [getToken_cached env json w1 node hfind hread, hdata, hdec], hsame⟩

/-! ## The claims about the token store and the authorizer -/

/-- C7 as the code has it: when the cached token file exists and can be
opened but its contents do not decode as a credential, `getToken` returns the
decode error to its caller without starting the interactive authorization,
and `main` stops on it with `log.Fatal`. -/
theorem malformed_token_file_is_fatal (env : Env) (json : JSON) (fs : FS) (cfg : Config)
    (trace : List Event) (node : FileNode) (e : GoError) (args : List GoString)
    (hfile : fs.find (tokenFile env) = some node) (hread : node.readable = true)
    (hbad : json.Decode node.data = .error e) :
    (∃ t, newTokenFile fs (tokenFile env) = .ok t ∧ t.Token json fs = .error e)
    ∧ getToken env json ⟨fs, cfg, trace⟩ = (.ret (.error e), ⟨fs, cfg, trace⟩)
    ∧ (∀ sj, ReadFile fs (env.HOME ++ "/.contacts-secrets.json".toList) = .ok sj →
        env.ConfigFromJSON sj = .ok cfg → main env json args fs = some (Fatal e)) := by
  have hg : ∀ tr : List Event,
      getToken env json ⟨fs, cfg, tr⟩ = (.ret (.error e), ⟨fs, cfg, tr⟩) := by
    intro tr
    rw [getToken_cached env json ⟨fs, cfg, tr⟩ node hfile hread, hbad]
  obtain ⟨h1, h2⟩ := load_of_find json fs (tokenFile env) node hfile hread
  refine ⟨⟨_, h1, by rw [h2, hbad]⟩, hg trace, ?_⟩
  intro sj hsj hcfg
  simp only [main, hsj, hcfg, hg]

/-- C7 fails on the code: with an empty (hence malformed) token file that can
be opened, on a machine where the interactive authorization would succeed,
`getToken` returns the decode error and starts no interactive flow. -/
theorem malformed_token_file_no_fallback :
    newTokenFile emptyTokenFS (tokenFile sampleEnv) = .ok ⟨⟨tokenFile sampleEnv, 0⟩⟩
    ∧ tokenfile.Token lineJSON emptyTokenFS ⟨⟨tokenFile sampleEnv, 0⟩⟩
        = .error (.other "EOF".toList)
    ∧ getToken sampleEnv lineJSON ⟨emptyTokenFS, ⟨[], []⟩, []⟩
        = (.ret (.error (.other "EOF".toList)),
            ⟨emptyTokenFS, ⟨[], []⟩, []⟩)
    ∧ Event.serverStarted sampleEnv.srvURL
        ∉ (getToken sampleEnv lineJSON ⟨emptyTokenFS, ⟨[], []⟩, []⟩).2.trace
    ∧ (authorize sampleEnv lineJSON ⟨emptyTokenFS, ⟨[], []⟩, []⟩).1 = .ret (.ok sampleToken) :=
  ⟨rfl, rfl, rfl, by decide, rfl⟩

/-- C8: for a token-file path that does not exist or may not be opened,
`newTokenFile` returns an error and no store, and `getToken` then takes the
interactive branch; conversely `getToken` takes the interactive branch only
when `newTokenFile` fails. -/
theorem missing_token_file_goes_interactive (env : Env) (json : JSON) (w : World)
    (fs : FS) (name : GoString) :
    (fs.find name = none → newTokenFile fs name = .error (.notExist name))
    ∧ (∀ node, fs.find name = some node → node.readable = false →
        newTokenFile fs name = .error (.permission name))
    ∧ (∀ e, newTokenFile w.fs (tokenFile env) = .error e →
        getToken env json w = authorize env json w
        ∧ ∃ rest, (getToken env json w).2.trace
            = w.trace ++ Event.serverStarted env.srvURL :: rest)
    ∧ ((∃ rest, (getToken env json w).2.trace
            = w.trace ++ Event.serverStarted env.srvURL :: rest) →
        ∃ e, newTokenFile w.fs (tokenFile env) = .error e) := by
  refine ⟨?_, ?_, ?_, ?_⟩
  · intro h
    simp [newTokenFile, osOpen, h]
  · intro node h hr
    simp [newTokenFile, osOpen, h, hr]
  · intro e h
    have hg : getToken env json w = authorize env json w := by
      simp only [getToken, h]
    exact ⟨hg, by rw [hg]; exact authorize_trace env json w⟩
  · rintro ⟨rest, h⟩
    cases hn : newTokenFile w.fs (tokenFile env) with
    | error e => exact ⟨e, rfl⟩
    | ok src =>
      exfalso
      have ht : (getToken env json w).2.trace = w.trace := by
        simp only [getToken, hn]
        split <;> rfl
      rw [ht] at h
      have := congrArg List.length h
      simp at this

/-- C4 at a concrete input: a contact with a name and no email address leaves
the writer as it was. -/
theorem no_email_no_output_witness :
    (⟨[⟨"Ann".toList⟩], []⟩ : Person).EmailAddresses = []
    ∧ printPerson "x\n".toList ⟨[⟨"Ann".toList⟩], []⟩ = "x\n".toList :=
  ⟨rfl, (no_email_no_output ⟨[⟨"Ann".toList⟩], []⟩ "x\n".toList rfl).1⟩

/-- C5 at a concrete input: a contact named `Ann` with two addresses gives two
lines, both named `Ann`. -/
theorem one_line_per_email_sharing_name_witness :
    (∀ a ∈ [(⟨"a@x.com".toList⟩ : EmailAddress), ⟨"a@work.org".toList⟩],
        SingleLine (a.Value ++ ['\t'] ++ "Ann".toList ++ ['\t']))
    ∧ scanLines (printPerson [] ⟨[⟨"Ann".toList⟩], [⟨"a@x.com".toList⟩, ⟨"a@work.org".toList⟩]⟩)
        = ⟨["a@x.com\tAnn\t".toList, "a@work.org\tAnn\t".toList], none⟩ :=
  have h : ∀ a ∈ [(⟨"a@x.com".toList⟩ : EmailAddress), ⟨"a@work.org".toList⟩],
      SingleLine (a.Value ++ ['\t'] ++ "Ann".toList ++ ['\t']) := by
    intro a ha
    simp only [List.mem_cons, List.mem_singleton, List.not_mem_nil, or_false] at ha
    rcases ha with rfl | rfl <;> exact ⟨by decide, by decide, by decide⟩
  ⟨h, (one_line_per_email_sharing_name [] "Ann".toList
      [⟨"a@x.com".toList⟩, ⟨"a@work.org".toList⟩]).2.2 h⟩

/-- C6 at a concrete input: the local part of `a@x.com` is the text before its
`@`. -/
theorem local_part_when_no_name_witness :
    '@' ∈ "a@x.com".toList
    ∧ ∃ rest, "a@x.com".toList = localPart "a@x.com".toList ++ '@' :: rest
        ∧ '@' ∉ localPart "a@x.com".toList :=
  ⟨by decide, (local_part_when_no_name [] []).2.2.1 "a@x.com".toList (by decide)⟩

/-- C7 as the code has it, at a concrete input: with an empty token file `main`
stops on the decode error. -/
theorem malformed_token_file_is_fatal_witness :
    emptyTokenFS.find (tokenFile sampleEnv) = some ⟨[], true, true⟩
    ∧ lineJSON.Decode [] = .error (.other "EOF".toList)
    ∧ main sampleEnv lineJSON [] emptyTokenFS = some (Fatal (.other "EOF".toList)) :=
  ⟨rfl, rfl,
    (malformed_token_file_is_fatal sampleEnv lineJSON emptyTokenFS ⟨"secrets".toList, []⟩ []
      ⟨[], true, true⟩ (.other "EOF".toList) [] rfl rfl rfl).2.2 "secrets".toList rfl rfl⟩

/-- C8 at a concrete input: without a token file `newTokenFile` reports that
the path does not exist and `getToken` runs the interactive branch. -/
theorem missing_token_file_goes_interactive_witness :
    freshFS.find (tokenFile sampleEnv) = none
    ∧ newTokenFile freshFS (tokenFile sampleEnv) = .error (.notExist (tokenFile sampleEnv))
    ∧ getToken sampleEnv lineJSON ⟨freshFS, ⟨[], []⟩, []⟩
        = authorize sampleEnv lineJSON ⟨freshFS, ⟨[], []⟩, []⟩ :=
  have h := missing_token_file_goes_interactive sampleEnv lineJSON ⟨freshFS, ⟨[], []⟩, []⟩
    freshFS (tokenFile sampleEnv)
  ⟨rfl, h.1 rfl, (h.2.2.1 _ (h.1 rfl)).1⟩

end Contacts
